import Mathlib

/-!
Verification of the build-log segmentation engine of the osc-mcp repository.

The definitions below are a shallow embedding of
`internal/pkg/buildlog/buildlog.go` (types `BuildPhase`, `BuildPhaseDetails`,
`BuildLog`, functions `extractTime`, `ParseLog`, `nextPhase`, the table
`phaseMatches`, and the method `FormatJson`) and of `toBuildPhase` from
`internal/pkg/osc/buildlog.go`.  Strings are processed as their character
lists; the `bufio.Scanner` line discipline (split at a newline, drop one
carriage return at the end of a token, no empty final token, scanning cut
short with `ErrTooLong` at the first line of 64 KiB or more) and the regular
expressions appearing in the Go source are translated into executable
recognizers, with a comment citing the regex each one implements.
-/

/-- Character class of the Go regexp escape `\s`, namely `[\t\n\f\r ]`. -/
def isRegexSpace (c : Char) : Bool :=
  c == '\t' || c == '\n' || c == '\x0c' || c == '\r' || c == ' '

/-- Character class of the Go regexp escape `\d`. -/
def isDigitChar (c : Char) : Bool :=
  '0' ≤ c && c ≤ '9'

/-- Split a character list on newline characters, keeping empty parts,
as `strings.Split(s, "\n")` does. -/
def splitNl : List Char → List (List Char)
  | [] => [[]]
  | c :: rest =>
    if c == '\n' then [] :: splitNl rest
    else
      match splitNl rest with
      | [] => [[c]]
      | p :: ps => (c :: p) :: ps

/-- Drop one terminal carriage return, as `dropCR` inside `bufio.ScanLines`. -/
def dropCRchars (cs : List Char) : List Char :=
  match cs.getLast? with
  | some '\r' => cs.dropLast
  | _ => cs

/-- UTF-8 byte width of a character, as Go measures its scanner buffer. -/
def utf8Len (c : Char) : Nat :=
  if c.toNat < 0x80 then 1
  else if c.toNat < 0x800 then 2
  else if c.toNat < 0x10000 then 3
  else 4

/-- UTF-8 byte length of a character list. -/
def utf8ByteLen (cs : List Char) : Nat :=
  (cs.map utf8Len).sum

/-- `bufio.MaxScanTokenSize`, the scanner's default cap (64 KiB). -/
def maxScanTokenSize : Nat := 65536

/-- The tokens `bufio.Scanner.Scan` yields from the newline-split parts of
the input.  A part whose byte length reaches `bufio.MaxScanTokenSize` can
never expose its terminator inside the scanner's buffer (nor let the reader
reach end of input first), so `Scan` stops with `ErrTooLong` there: that
part and every later one produce no token.  `ParseLog` never checks
`scanner.Err()`, so the loop simply ends on the tokens already yielded.
A shorter part is emitted with one trailing carriage return dropped, and
the empty final part after a trailing newline yields no token (`ScanLines`
returns nothing for empty data at end of input). -/
def scanTokens : List (List Char) → List (List Char)
  | [] => []
  | [p] =>
    if p.isEmpty then []
    else if maxScanTokenSize ≤ utf8ByteLen p then []
    else [dropCRchars p]
  | p :: rest =>
    if maxScanTokenSize ≤ utf8ByteLen p then []
    else dropCRchars p :: scanTokens rest

/-- The line sequence `ParseLog`'s scanner loop consumes: newline-split
parts turned into tokens under the `bufio` discipline (trailing carriage
return dropped, no empty final token, scanning cut short at the first part
of 64 KiB or more). -/
def scanLines (s : String) : List String :=
  (scanTokens (splitNl s.data)).map List.asString

/-- Join character lists with a newline separator. -/
def joinChars : List (List Char) → List Char
  | [] => []
  | [l] => l
  | l :: ls => l ++ '\n' :: joinChars ls

/-- Join lines into one text with newline separators (the inverse direction
of `scanLines`, used to state the idempotence claim). -/
def joinLines (ls : List String) : String :=
  (joinChars (ls.map String.data)).asString

/-- Match a literal character list at the head of the input, returning the
remainder on success. -/
def litMatch : List Char → List Char → Option (List Char)
  | [], cs => some cs
  | _ :: _, [] => none
  | l :: ls, c :: cs => if c == l then litMatch ls cs else none

/-- Substring scan: does `pat` occur contiguously in the input?
Implements `strings.Contains`. -/
def subScan (pat : List Char) : List Char → Bool
  | [] => pat.isEmpty
  | c :: rest => (litMatch pat (c :: rest)).isSome || subScan pat rest

/-- `strings.Contains hay pat`. -/
def containsSub (hay pat : String) : Bool :=
  subScan pat.data hay.data

/-- Decimal value of a digit run. -/
def digitsToNat (ds : List Char) : Nat :=
  ds.foldl (fun a c => a * 10 + (c.toNat - 48)) 0

/-- Largest value accepted by `strconv.Atoi` on a 64-bit platform. -/
def int64Max : Nat := 9223372036854775807

/-- Consume the prefix matched by `\[\s*(\d+)s\]`, returning the digit run
of the capture group and the remainder after the closing bracket. -/
def timeTail (cs : List Char) : Option (List Char × List Char) :=
  match cs with
  | '[' :: rest =>
    let rest2 := rest.dropWhile isRegexSpace
    let ds := rest2.takeWhile isDigitChar
    if ds.isEmpty then none
    else
      match rest2.drop ds.length with
      | 's' :: ']' :: rem => some (ds, rem)
      | _ => none
  | _ => none

/-- `extractTime` from `buildlog.go`: apply the regexp `^\[\s*(\d+)s\]` to
the line and convert the capture with `strconv.Atoi`; `none` models the
`(0, false)` return (no match, or `Atoi` overflow). -/
def extractTime (line : String) : Option Nat :=
  match timeTail line.data with
  | some (ds, _) =>
    let n := digitsToNat ds
    if n ≤ int64Max then some n else none
  | none => none

/-- The build phases, in declaration (iota) order, from `buildlog.go`. -/
inductive BuildPhase where
  | Header
  | Preinstall
  | CopyingPackages
  | VMBoot
  | PackageCumulation
  | PackageInstallation
  | Build
  | PostBuildChecks
  | RPMLintReport
  | PackageComparison
  | Summary
  | Retries
deriving DecidableEq, Fintype

/-- The iota value of a phase constant. -/
def BuildPhase.idx : BuildPhase → Nat
  | .Header => 0
  | .Preinstall => 1
  | .CopyingPackages => 2
  | .VMBoot => 3
  | .PackageCumulation => 4
  | .PackageInstallation => 5
  | .Build => 6
  | .PostBuildChecks => 7
  | .RPMLintReport => 8
  | .PackageComparison => 9
  | .Summary => 10
  | .Retries => 11

/-- `BuildPhase.String` from `buildlog.go` (the out-of-range `"Unknown"`
branch is unrepresentable for the inductive type). -/
def BuildPhase.toString : BuildPhase → String
  | .Header => "Header"
  | .Preinstall => "Preinstall"
  | .CopyingPackages => "CopyingPackages"
  | .VMBoot => "VMBoot"
  | .PackageCumulation => "PackageCumulation"
  | .PackageInstallation => "PackageInstallation"
  | .Build => "Build"
  | .PostBuildChecks => "PostBuildChecks"
  | .RPMLintReport => "RPMLintReport"
  | .PackageComparison => "PackageComparison"
  | .Summary => "Summary"
  | .Retries => "Retries"

/-- Character class `[\s\d/]` used by the preinstall and cumulate matchers. -/
def isCumClass (c : Char) : Bool :=
  isRegexSpace c || isDigitChar c || c == '/'

/-- Tail recognizer for `\[[\s\d/]+\] <lit>`: an opening bracket, a nonempty
run of the class `[\s\d/]`, a closing bracket, then the literal `lit`.
The run is maximal; since `]` is not in the class this agrees with the
backtracking semantics of the regexp. -/
def bracketClassTail (lit : List Char) (cs : List Char) : Bool :=
  match cs with
  | '[' :: rest =>
    let run := rest.takeWhile isCumClass
    if run.isEmpty then false
    else (litMatch (']' :: lit) (rest.drop run.length)).isSome
  | _ => false

/-- Tail recognizer for a plain literal regex fragment. -/
def litTail (lit : List Char) (cs : List Char) : Bool :=
  (litMatch lit cs).isSome

/-- The literal ` finished "build ` occurring in the Summary matcher. -/
def finishedMarker : List Char := " finished \"build ".data

/-- Scan for a double quote, allowing any non-newline characters before it
(`.*"` with at least the quote remaining). -/
def quoteAfter : List Char → Bool
  | [] => false
  | c :: rest => if c == '"' then true else if c == '\n' then false else quoteAfter rest

/-- Recognizer for `.+"`: one non-newline character, then a double quote
possibly preceded by further non-newline characters. -/
def dotPlusQuote : List Char → Bool
  | [] => false
  | c :: rest => c != '\n' && quoteAfter rest

/-- Scan for an occurrence of ` finished "build ` followed by `.+"`,
allowing any non-newline characters before the occurrence. -/
def markerScan : List Char → Bool
  | [] => false
  | c :: rest =>
    (match litMatch finishedMarker (c :: rest) with
     | some rem => dotPlusQuote rem
     | none => false)
    || (c != '\n' && markerScan rest)

/-- Tail recognizer for the Summary matcher fragment
`i\d+-.+ finished "build .+"`. -/
def summaryTail (cs : List Char) : Bool :=
  match cs with
  | 'i' :: rest =>
    let ds := rest.takeWhile isDigitChar
    if ds.isEmpty then false
    else
      match rest.drop ds.length with
      | '-' :: rest2 =>
        match rest2 with
        | [] => false
        | a :: rest3 => a != '\n' && markerScan rest3
      | _ => false
  | _ => false

/-- Wrap a tail recognizer with the common matcher prefix `^\[\s*\d+s\] `. -/
def timeHeaded (tail : List Char → Bool) (line : String) : Bool :=
  match timeTail line.data with
  | some (_, rem) =>
    match rem with
    | ' ' :: rest => tail rest
    | _ => false
  | none => false

/-- The sixty-five dashes of the Build matcher. -/
def buildDashes : List Char := List.replicate 65 '-'

/-- The `phaseMatches` table from `buildlog.go`: each entry carries a phase
and the recognizer of its (anchored) signature regexp, in iota order. -/
def phaseMatches : List (BuildPhase × (String → Bool)) :=
  [ (.Header, fun l =>
      match l.data with
      | '[' :: _ => true
      | _ => false),
    (.Preinstall, timeHeaded (bracketClassTail " preinstalling".data)),
    (.CopyingPackages, timeHeaded (litTail "copying packages.".data)),
    (.VMBoot, timeHeaded (litTail "booting kvm.".data)),
    (.PackageCumulation, timeHeaded (bracketClassTail " cumulate".data)),
    (.PackageInstallation, timeHeaded (litTail "now installing cumulated packages".data)),
    (.Build, timeHeaded (litTail buildDashes)),
    (.PostBuildChecks, timeHeaded (litTail "... checking for files with abuild user/group".data)),
    (.RPMLintReport, timeHeaded (litTail "RPMLINT report:".data)),
    (.PackageComparison, timeHeaded (litTail "... comparing built packages with the former built".data)),
    (.Summary, timeHeaded summaryTail),
    (.Retries, fun l => (litMatch "Retried build at".data l.data).isSome) ]

/-- The body of the `for` loop of `nextPhase`: try each remaining table
entry in order, returning the first phase whose matcher accepts the line. -/
def scanMatchers : List (BuildPhase × (String → Bool)) → String → BuildPhase → BuildPhase
  | [], _, current => current
  | pm :: rest, line, current =>
    match pm.2 line with
    | true => pm.1
    | false => scanMatchers rest line current

/-- `nextPhase` from `buildlog.go`: scan `phaseMatches` from index
`current + 1` upward and return the first match, else `current`. -/
def nextPhase (current : BuildPhase) (line : String) : BuildPhase :=
  scanMatchers (phaseMatches.drop (current.idx + 1)) line current

/-- The apostrophe character appearing in the build-info regexp. -/
def apos : Char := Char.ofNat 39

/-- Character class of the Go regexp escape `\S`. -/
def goNonSpace (c : Char) : Bool := !(isRegexSpace c)

/-- The literal ` for project '` of the build-info regexp. -/
def litProject : List Char := " for project ".data ++ [apos]

/-- The literal `' repository '` of the build-info regexp. -/
def litRepo : List Char := apos :: " repository ".data ++ [apos]

/-- The literal `' arch '` of the build-info regexp. -/
def litArch : List Char := apos :: " arch ".data ++ [apos]

/-- Match `(\S+)<lit>` where `lit` starts with an apostrophe and continues
with a space: the capture is the maximal nonspace run with its final
apostrophe removed.  Because the character after the capture inside `lit`
is a space while `\S+` only takes nonspace characters, the backtracking
search of the regexp engine has exactly this one candidate split. -/
def quotedGroup (lit : List Char) (cs : List Char) : Option (List Char × List Char) :=
  let run := cs.takeWhile goNonSpace
  if run.length < 2 then none
  else if run.getLast? == some apos then
    match litMatch lit (cs.drop (run.length - 1)) with
    | some rem => some (run.take (run.length - 1), rem)
    | none => none
  else none

/-- Match the final `(\S+)'` of the build-info regexp: the greedy capture is
everything up to the last apostrophe of the maximal nonspace run, which must
leave a nonempty capture. -/
def lastQuoteGroup (cs : List Char) : Option (List Char) :=
  let run := cs.takeWhile goNonSpace
  match run.reverse.findIdx? (fun c => c == apos) with
  | some k =>
    let l := run.length - 1 - k
    if 1 ≤ l then some (run.take l) else none
  | none => none

/-- Attempt the regexp
`Building (\S+) for project '(\S+)' repository '(\S+)' arch '(\S+)'`
at the start of the input, returning the four captures. -/
def matchBuildInfoAt (cs : List Char) : Option (String × String × String × String) :=
  match litMatch "Building ".data cs with
  | none => none
  | some r1 =>
    let g1 := r1.takeWhile goNonSpace
    if g1.isEmpty then none
    else
      match litMatch litProject (r1.drop g1.length) with
      | none => none
      | some r2 =>
        match quotedGroup litRepo r2 with
        | none => none
        | some (g2, r3) =>
          match quotedGroup litArch r3 with
          | none => none
          | some (g3, r4) =>
            match lastQuoteGroup r4 with
            | none => none
            | some g4 => some (g1.asString, g2.asString, g3.asString, g4.asString)

/-- Leftmost-match search for the build-info regexp, as
`FindStringSubmatch` performs on an unanchored pattern. -/
def buildInfoScan : List Char → Option (String × String × String × String)
  | [] => none
  | c :: rest =>
    match matchBuildInfoAt (c :: rest) with
    | some r => some r
    | none => buildInfoScan rest

/-- `buildInfoRegex.FindStringSubmatch(line)`: `some` iff the regexp matches,
carrying the four captures (name, project, distro, arch). -/
def buildInfoFind (line : String) : Option (String × String × String × String) :=
  buildInfoScan line.data

/-- `BuildPhaseDetails` from `buildlog.go`.  The `Properties` map is never
written by `ParseLog`; it is modelled as an association list. -/
structure BuildPhaseDetails where
  lines : List String := []
  success : Bool := false
  duration : Int := 0
  properties : List (String × String) := []
  phase : BuildPhase := .Header
deriving DecidableEq

/-- `BuildLog` from `buildlog.go`. -/
structure BuildLog where
  name : String := ""
  project : String := ""
  distro : String := ""
  arch : String := ""
  rawlog : String := ""
  phases : List BuildPhaseDetails := []
deriving DecidableEq

/-- The loop state of `ParseLog`: the log being built, the current phase,
the open segment, and the two time registers. -/
structure ScanState where
  log : BuildLog
  phase : BuildPhase
  cur : BuildPhaseDetails
  phaseStartTime : Nat
  lastTime : Nat

/-- One iteration of the scan loop of `ParseLog`: update `lastTime` from a
leading timestamp, overwrite the metadata on a build-info match, close the
open segment on a phase transition (duration `lastTime - phaseStartTime`,
no clamping), and append the line to the open segment. -/
def parseStep (st : ScanState) (line : String) : ScanState :=
  let lastTime :=
    match extractTime line with
    | some t => t
    | none => st.lastTime
  let log :=
    match buildInfoFind line with
    | some (n, p, d, a) =>
      { st.log with name := n, project := p, distro := d, arch := a }
    | none => st.log
  let newPhase := nextPhase st.phase line
  if newPhase ≠ st.phase then
    { log := { log with phases := log.phases ++
        [{ st.cur with phase := st.phase,
                       duration := (lastTime : Int) - (st.phaseStartTime : Int) }] },
      phase := newPhase,
      cur := { lines := [line] },
      phaseStartTime := lastTime,
      lastTime := lastTime }
  else
    { log := log,
      phase := st.phase,
      cur := { st.cur with lines := st.cur.lines ++ [line] },
      phaseStartTime := st.phaseStartTime,
      lastTime := lastTime }

/-- The final flush after the scan loop: close the open segment with the
same duration rule and append it. -/
def flushState (st : ScanState) : BuildLog :=
  { st.log with phases := st.log.phases ++
      [{ st.cur with phase := st.phase,
                     duration := (st.lastTime : Int) - (st.phaseStartTime : Int) }] }

/-- The scan loop of `ParseLog` run over an explicit line list. -/
def parseLines (raw : String) (ls : List String) : BuildLog :=
  flushState (ls.foldl parseStep
    { log := { rawlog := raw }, phase := .Header, cur := {},
      phaseStartTime := 0, lastTime := 0 })

/-- `ParseLog` from `buildlog.go`.  The second component models the `error`
result, which the Go function always returns as `nil`. -/
def ParseLog (logContent : String) : BuildLog × Option String :=
  (parseLines logContent (scanLines logContent), none)

/-- Character class of Go's `unicode.IsSpace`, used by `strings.TrimSpace`. -/
def isGoUniSpace (c : Char) : Bool :=
  c == '\t' || c == '\n' || c == '\x0b' || c == '\x0c' || c == '\r' || c == ' ' ||
  c.toNat == 0x85 || c.toNat == 0xa0 || c.toNat == 0x1680 ||
  (0x2000 ≤ c.toNat && c.toNat ≤ 0x200a) ||
  c.toNat == 0x2028 || c.toNat == 0x2029 ||
  c.toNat == 0x202f || c.toNat == 0x205f || c.toNat == 0x3000

/-- `strings.TrimSpace`: remove leading and trailing white space. -/
def trimSpace (s : String) : String :=
  (((s.data.dropWhile isGoUniSpace).reverse.dropWhile isGoUniSpace).reverse).asString

/-- Per-rune lowering of `strings.ToLower`, restricted to the mappings whose
result is ASCII (the ASCII letters, the Kelvin sign, and the dotted capital
I); all other characters, whose lowercase forms are non-ASCII, are kept. -/
def lowerChar (c : Char) : Char :=
  if 'A' ≤ c && c ≤ 'Z' then Char.ofNat (c.toNat + 32)
  else if c.toNat == 0x212a then 'k'
  else if c.toNat == 0x130 then 'i'
  else c

/-- `strings.ToLower` under the restriction documented at `lowerChar`. -/
def toLowerGo (s : String) : String :=
  (s.data.map lowerChar).asString

/-- `strings.Split(s, "\n")`. -/
def goSplitNl (s : String) : List String :=
  (splitNl s.data).map List.asString

namespace osc

/-- The `BuildPhase` struct of `internal/pkg/osc/buildlog.go` (a record, not
the phase enumeration of the `buildlog` package). -/
structure BuildPhase where
  lines : List String := []
  success : Bool := false
  duration : Int := 0
deriving DecidableEq

/-- `toBuildPhase` from `internal/pkg/osc/buildlog.go`: trim the content,
split it into lines, read the first and last leading `[Ns]` timestamps for
the duration, and report success iff the lowercased content contains neither
`error:` nor `failed:`. -/
def toBuildPhase (content : String) : BuildPhase :=
  let content := trimSpace content
  let lines := if content ≠ "" then goSplitNl content else []
  if lines.isEmpty then { success := false }
  else
    let times := lines.filterMap extractTime
    let duration : Int :=
      match times.head?, times.getLast? with
      | some f, some l => (l : Int) - (f : Int)
      | _, _ => 0
    let success := !containsSub (toLowerGo content) "error:" &&
                   !containsSub (toLowerGo content) "failed:"
    { lines := lines, success := success, duration := duration }

end osc

/-- One value of the per-phase JSON object built by `FormatJson`: the
`lines` and `success` keys are always set, `duration_seconds` only for a
nonzero duration, `properties` only when nonempty. -/
structure PhaseJson where
  lines : List String
  success : Bool
  duration : Option Int := none
  properties : Option (List (String × String)) := none
deriving DecidableEq

/-- Go map assignment `m[k] = v` on an association list: overwrite the
entry of an existing key, otherwise append. -/
def mapSet (m : List (String × PhaseJson)) (k : String) (v : PhaseJson) :
    List (String × PhaseJson) :=
  if m.any (fun kv => kv.1 == k) then
    m.map (fun kv => if kv.1 == k then (k, v) else kv)
  else m ++ [(k, v)]

/-- Go map lookup `m[k]`. -/
def mapGet (m : List (String × PhaseJson)) (k : String) : Option PhaseJson :=
  (m.find? (fun kv => kv.1 == k)).map (fun kv => kv.2)

/-- The result shape of `FormatJson`: the `Properties` object and the
`Phases` map keyed by phase name. -/
structure FormattedLog where
  name : String
  project : String
  distro : String
  arch : String
  phases : List (String × PhaseJson)
deriving DecidableEq

/-- The per-phase object `phaseData` built inside `FormatJson`. -/
def phaseJsonOf (p : BuildPhaseDetails) : PhaseJson :=
  { lines := p.lines,
    success := p.success,
    duration := if p.duration ≠ 0 then some p.duration else none,
    properties := if 0 < p.properties.length then some p.properties else none }

/-- `FormatJson` from `buildlog.go`: the metadata properties plus one map
entry per segment, keyed by the phase name (a later segment of the same
phase would overwrite an earlier one). -/
def FormatJson (log : BuildLog) : FormattedLog :=
  { name := log.name, project := log.project, distro := log.distro, arch := log.arch,
    phases := log.phases.foldl
      (fun m p => mapSet m p.phase.toString (phaseJsonOf p)) [] }

/-- C7 claim side, from the spec wording of §4.1: consider only table
entries whose index is strictly greater than the current phase's index and
return the first whose matcher accepts the line, else the current phase. -/
def claimNextPhase (current : BuildPhase) (line : String) : BuildPhase :=
  match (phaseMatches.enum.filter
      (fun p => decide (current.idx < p.1))).find? (fun p => p.2.2 line) with
  | some p => p.2.1
  | none => current

/-- C1 claim side: a line carries a failure marker when it contains
`error:` or `failed:` case-insensitively, or one of the whitespace-separated
tokens `FAILED` / `ERROR`. -/
def claimFailureMarker (line : String) : Bool :=
  containsSub (toLowerGo line) "error:" || containsSub (toLowerGo line) "failed:" ||
  (line.data.splitOnP isGoUniSpace).any
    (fun w => w == "FAILED".data || w == "ERROR".data)

/-- The value of the `lastTime` register after scanning a line list. -/
def lastTimeOf (ls : List String) : Nat :=
  ls.foldl
    (fun t l =>
      match extractTime l with
      | some n => n
      | none => t) 0

/-- The concrete four-line scenario of spec §8. -/
def scenarioInput : String :=
  "[0s] init_buildsystem\n[2s] querying package ids...\n[5s] ERROR: x\n[6s] finished \"build foo\""

/-- A log whose `[Ns]` timestamps decrease across a phase transition. -/
def decreasingTimesInput : String :=
  "[5s] [1/2] preinstalling a\n[2s] i1-x finished \"build foo\""

/-- A line in the shape of the build-info header, with single-character
fields. -/
def buildingLine (n p r a : Char) : String :=
  ("Building ".data ++ [n] ++ " for project ".data ++ [apos, p, apos] ++
   " repository ".data ++ [apos, r, apos] ++ " arch ".data ++ [apos, a, apos]).asString

/-- Two build-info lines with different fields. -/
def twoBuildingInput : String :=
  ((buildingLine 'a' 'p' 'r' 'x').data ++ '\n' :: (buildingLine 'b' 'q' 's' 'y').data).asString

/-- One build-info line and nothing else. -/
def oneBuildingInput : String := buildingLine 'a' 'p' 'r' 'x'

/-- C1, counterexample.  On the marker-free input `"all good"` the produced
segment's `success` flag is `false` although no line of it carries a failure
marker in the claim's sense, refuting that the flag is false exactly when a
marker occurs: `ParseLog` never computes a success verdict at all. -/
theorem success_not_marker_driven_cex :
    (ParseLog "all good").1.phases.map (fun p => (p.success, p.lines)) =
      [(false, ["all good"])] ∧
    claimFailureMarker "all good" = false := by
  decide

/-- C3, counterexample.  On `decreasingTimesInput` the Preinstall segment is
closed at timestamp 2 after opening at timestamp 5, and its recorded
duration is the unclamped value `-3 < 0`, refuting
`duration = max(0, lastSeenTime - segmentStartTime)`. -/
theorem duration_negative_cex :
    ((ParseLog decreasingTimesInput).1.phases.map (fun p => p.duration)) = [5, -3, 0] ∧
    ∃ seg ∈ (ParseLog decreasingTimesInput).1.phases, seg.duration < 0 := by
  decide

/-- C4, counterexample.  The first line of `twoBuildingInput` matches the
build-info pattern with name `"a"`, yet the parsed metadata carries `"b"`
from the second matching line: a later match overwrites an already-filled
field, refuting first-match-wins. -/
theorem metadata_last_match_cex :
    buildInfoFind (buildingLine 'a' 'p' 'r' 'x') = some ("a", "p", "r", "x") ∧
    (ParseLog twoBuildingInput).1.name = "b" ∧
    (ParseLog twoBuildingInput).1.project = "q" := by
  decide

/-- C5, counterexample.  For the parsed log of `"hello"` the formatted
output's `Header` entry carries no `duration_seconds` value (the code emits
it only when the duration is nonzero), refuting that the
`{phase, duration, succeeded}` summary is present unconditionally. -/
theorem format_omits_zero_duration_cex :
    mapGet (FormatJson (ParseLog "hello").1).phases "Header" =
      some { lines := ["hello"], success := false, duration := none, properties := none } ∧
    (ParseLog "hello").1.phases.length = 1 := by
  decide

/-- C6, counterexample.  The concrete scenario input parses into a single
Header segment: its last segment's phase is Header, not Summary, because the
Summary matcher `^\[\s*\d+s\] i\d+-.+ finished "build .+"` requires an
`i<N>-` worker prefix that the line `[6s] finished "build foo"` lacks. -/
theorem scenario_not_summary_cex :
    ((ParseLog scenarioInput).1.phases.map (fun p => p.phase)) = [BuildPhase.Header] ∧
    BuildPhase.Header ≠ BuildPhase.Summary := by
  decide

/-- C8, counterexample.  `oneBuildingInput` contains no line matching any
phase-signature matcher of positive index, and indeed parses to a single
Header segment — but its metadata is not empty: the build-info line fills
`name` with `"a"`, refuting the empty-metadata part of the claim. -/
theorem no_signature_metadata_cex :
    (∀ l ∈ scanLines oneBuildingInput, ∀ pm ∈ phaseMatches.drop 1, pm.2 l = false) ∧
    ((ParseLog oneBuildingInput).1.phases.map (fun p => p.phase)) = [BuildPhase.Header] ∧
    (ParseLog oneBuildingInput).1.name = "a" := by
  decide

/-- C9, counterexample.  For the input `"a\n\n"` the parsed segment holds the
lines `["a", ""]`; joining them yields `"a\n"`, which re-parses to the line
list `["a"]`: the re-parsed segmentation differs, refuting idempotence. -/
theorem reparse_not_idempotent_cex :
    ((ParseLog "a\n\n").1.phases.map (fun p => p.lines)) = [["a", ""]] ∧
    ((ParseLog (joinLines (((ParseLog "a\n\n").1.phases.map (fun p => p.lines)).flatten))).1.phases.map
      (fun p => p.lines)) = [["a"]] ∧
    (ParseLog (joinLines (((ParseLog "a\n\n").1.phases.map (fun p => p.lines)).flatten))).1.phases ≠
      (ParseLog "a\n\n").1.phases := by
  decide

/-- The line material carried by a scan state: lines of the closed segments
followed by the lines of the open segment. -/
def stateLines (st : ScanState) : List String :=
  (st.log.phases.map (fun p => p.lines)).flatten ++ st.cur.lines

/-- Each loop iteration moves exactly the scanned line into the state. -/
lemma stateLines_parseStep (st : ScanState) (l : String) :
    stateLines (parseStep st l) = stateLines st ++ [l] := by
  cases hbi : buildInfoFind l with
  | none =>
    by_cases h : nextPhase st.phase l ≠ st.phase <;>
      simp [stateLines, parseStep, hbi, h]
  | some r =>
    obtain ⟨n, p, d, a⟩ := r
    by_cases h : nextPhase st.phase l ≠ st.phase <;>
      simp [stateLines, parseStep, hbi, h]

/-- The scan loop appends the processed lines to the state's line material. -/
lemma stateLines_foldl (ls : List String) :
    ∀ st : ScanState, stateLines (ls.foldl parseStep st) = stateLines st ++ ls := by
  induction ls with
  | nil => intro st; simp
  | cons l ls ih =>
    intro st
    rw [List.foldl_cons, ih, stateLines_parseStep]
    simp

/-- Concatenating all segment line sequences of a parse over an explicit
line list gives back that list. -/
lemma parseLines_lines (raw : String) (ls : List String) :
    ((parseLines raw ls).phases.map (fun p => p.lines)).flatten = ls := by
  have h := stateLines_foldl ls
    { log := { rawlog := raw }, phase := .Header, cur := {},
      phaseStartTime := 0, lastTime := 0 }
  simp [stateLines] at h
  simp [parseLines, flushState, h]

/-- C2 claim side: the cap-free line sequence of a text — every
newline-split part, one trailing carriage return dropped, no empty final
part — i.e. what the scanner would yield if no line could overflow it. -/
def idealTokens (parts : List (List Char)) : List (List Char) :=
  (match parts.getLast? with
   | some [] => parts.dropLast
   | _ => parts).map dropCRchars

/-- The cap-free line sequence of a string (see `idealTokens`). -/
def idealLines (s : String) : List String :=
  (idealTokens (splitNl s.data)).map List.asString

/-- Splitting off the rest after an initial part holds one position before
and after the first newline. -/
lemma idealTokens_cons₂ (p q : List Char) (rs : List (List Char)) :
    idealTokens (p :: q :: rs) = dropCRchars p :: idealTokens (q :: rs) := by
  rw [idealTokens, idealTokens, List.getLast?_cons_cons]
  cases h : (q :: rs).getLast? with
  | none => simp
  | some x =>
    cases x with
    | nil => simp [List.dropLast]
    | cons y ys => simp

/-- When every newline-split part stays under the scanner cap, the capped
token stream coincides with the cap-free one. -/
lemma scanTokens_short : ∀ (parts : List (List Char)),
    (∀ p ∈ parts, utf8ByteLen p < maxScanTokenSize) →
    scanTokens parts = idealTokens parts
  | [], _ => rfl
  | [p], h => by
    cases p with
    | nil => rfl
    | cons c cs =>
      have hlt := h (c :: cs) (List.mem_cons_self _ _)
      simp [scanTokens, idealTokens, Nat.not_le.mpr hlt]
  | p :: q :: rs, h => by
    have hlt := h p (List.mem_cons_self _ _)
    have hrest : ∀ x ∈ q :: rs, utf8ByteLen x < maxScanTokenSize :=
      fun x hx => h x (List.mem_cons_of_mem p hx)
    rw [idealTokens_cons₂]
    show (if maxScanTokenSize ≤ utf8ByteLen p then []
          else dropCRchars p :: scanTokens (q :: rs)) = _
    rw [if_neg (Nat.not_le.mpr hlt), scanTokens_short (q :: rs) hrest]

/-- C2, amended.  Concatenating the segments' line sequences, in order,
reproduces exactly the token sequence the scanner yields (the final open
segment is flushed at end of input), and that token sequence is the
input's full line sequence only as long as every line stays under
`bufio`'s 64 KiB token cap; from the first over-long line onward, lines
are silently dropped (`scanner.Err()` is never checked), as the recorded
counterexample shows. -/
theorem parse_preserves_lines (s : String) :
    ((ParseLog s).1.phases.map (fun p => p.lines)).flatten = scanLines s ∧
    ((∀ p ∈ splitNl s.data, utf8ByteLen p < maxScanTokenSize) →
      scanLines s = idealLines s) := by
  constructor
  · simpa using parseLines_lines s (scanLines s)
  · intro h
    rw [scanLines, idealLines, scanTokens_short (splitNl s.data) h]

/-- C2, witness for the amended theorem at a concrete input. -/
theorem parse_preserves_lines_w :
    ((ParseLog "a\nb").1.phases.map (fun p => p.lines)).flatten = scanLines "a\nb" ∧
    scanLines "a\nb" = idealLines "a\nb" :=
  ⟨(parse_preserves_lines "a\nb").1, (parse_preserves_lines "a\nb").2 (by decide)⟩

/-- The `lastTime` register of the scan state follows the `lastTimeOf`
fold over the processed lines. -/
lemma lastTime_foldl (ls : List String) :
    ∀ st : ScanState, (ls.foldl parseStep st).lastTime =
      ls.foldl
        (fun t l =>
          match extractTime l with
          | some n => n
          | none => t) st.lastTime := by
  induction ls with
  | nil => intro st; simp
  | cons l ls ih =>
    intro st
    rw [List.foldl_cons, List.foldl_cons, ih]
    congr 1
    cases hbi : buildInfoFind l with
    | none =>
      cases het : extractTime l with
      | none =>
        by_cases h : nextPhase st.phase l ≠ st.phase <;> simp [parseStep, hbi, het, h]
      | some t =>
        by_cases h : nextPhase st.phase l ≠ st.phase <;> simp [parseStep, hbi, het, h]
    | some r =>
      obtain ⟨n, p, d, a⟩ := r
      cases het : extractTime l with
      | none =>
        by_cases h : nextPhase st.phase l ≠ st.phase <;> simp [parseStep, hbi, het, h]
      | some t =>
        by_cases h : nextPhase st.phase l ≠ st.phase <;> simp [parseStep, hbi, het, h]

/-- The closed durations always sum to the current segment's start time;
each transition closes a segment of duration `lastTime - phaseStartTime`
and restarts the register at `lastTime`, so the sum telescopes. -/
lemma durSum_foldl (ls : List String) :
    ∀ st : ScanState,
      ((st.log.phases.map (fun p => p.duration)).sum = (st.phaseStartTime : Int)) →
      (((ls.foldl parseStep st).log.phases.map (fun p => p.duration)).sum =
        ((ls.foldl parseStep st).phaseStartTime : Int)) := by
  induction ls with
  | nil => intro st h; simpa using h
  | cons l ls ih =>
    intro st h
    rw [List.foldl_cons]
    apply ih
    cases hbi : buildInfoFind l with
    | none =>
      by_cases hph : nextPhase st.phase l ≠ st.phase
      · simp [parseStep, hbi, hph, h]
      · simp [parseStep, hbi, hph, h]
    | some r =>
      obtain ⟨n, p, d, a⟩ := r
      by_cases hph : nextPhase st.phase l ≠ st.phase
      · simp [parseStep, hbi, hph, h]
      · simp [parseStep, hbi, hph, h]

/-- C3, amended.  Durations are the unclamped differences
`lastSeenTime - segmentStartTime`; consecutive segments share their
boundary timestamp, so the durations of all segments telescope to the last
timestamp seen in the log (and, as the recorded counterexample shows, an
individual duration can be negative when timestamps decrease). -/
theorem duration_telescopes (s : String) :
    (((ParseLog s).1.phases.map (fun p => p.duration)).sum) =
      (lastTimeOf (scanLines s) : Int) := by
  have hset : ∀ st : ScanState,
      st = { log := { rawlog := s }, phase := .Header, cur := {},
             phaseStartTime := 0, lastTime := 0 } →
      ((st.log.phases.map (fun p => p.duration)).sum = (st.phaseStartTime : Int)) := by
    intro st hst; subst hst; simp
  have hd := durSum_foldl (scanLines s)
    { log := { rawlog := s }, phase := .Header, cur := {},
      phaseStartTime := 0, lastTime := 0 } (hset _ rfl)
  have hl := lastTime_foldl (scanLines s)
    { log := { rawlog := s }, phase := .Header, cur := {},
      phaseStartTime := 0, lastTime := 0 }
  simp only [ParseLog, parseLines, flushState]
  simp [hd, hl, lastTimeOf]

/-- The four metadata fields of a scan state. -/
def metaQuad (st : ScanState) : String × String × String × String :=
  (st.log.name, st.log.project, st.log.distro, st.log.arch)

/-- Folding an overwrite update selects the last produced value. -/
lemma getLast?_getD_cons {α : Type} : ∀ (rest : List α) (v d : α),
    ((v :: rest).getLast?).getD d = (rest.getLast?).getD v
  | [], v, d => by simp
  | r :: rs, v, d => by
    rw [List.getLast?_cons_cons, getLast?_getD_cons rs r d, getLast?_getD_cons rs r v]

/-- The metadata after the scan loop is the last build-info match among the
processed lines, with the incoming metadata as the default. -/
lemma metaQuad_foldl (ls : List String) :
    ∀ st : ScanState, metaQuad (ls.foldl parseStep st) =
      ((ls.filterMap buildInfoFind).getLast?).getD (metaQuad st) := by
  induction ls with
  | nil => intro st; simp
  | cons l ls ih =>
    intro st
    rw [List.foldl_cons, ih]
    cases hbi : buildInfoFind l with
    | none =>
      simp only [List.filterMap_cons, hbi]
      congr 1
      by_cases h : nextPhase st.phase l ≠ st.phase <;> simp [parseStep, metaQuad, hbi, h]
    | some r =>
      obtain ⟨n, p, d, a⟩ := r
      simp only [List.filterMap_cons, hbi]
      rw [getLast?_getD_cons]
      congr 1
      by_cases h : nextPhase st.phase l ≠ st.phase <;> simp [parseStep, metaQuad, hbi, h]

/-- C4, amended.  The metadata extractor applies only the remote-build
pattern `Building <name> for project '<p>' repository '<r>' arch '<a>'` to
every line; each match overwrites all four fields, so the parsed metadata is
the last match among the lines (not the first), and all four fields stay
empty when no line matches.  There is no local-build `.spec` pattern and no
`BUILD_ROOT` heuristic. -/
theorem metadata_equals_last_match (s : String) :
    ((ParseLog s).1.name, (ParseLog s).1.project,
     (ParseLog s).1.distro, (ParseLog s).1.arch) =
      (((scanLines s).filterMap buildInfoFind).getLast?).getD ("", "", "", "") := by
  have h := metaQuad_foldl (scanLines s)
    { log := { rawlog := s }, phase := .Header, cur := {},
      phaseStartTime := 0, lastTime := 0 }
  simp [metaQuad] at h
  simpa [ParseLog, parseLines, flushState, metaQuad] using h

/-- Flag invariant of the scan state: `ParseLog` never assigns `Success` or
`Properties`, so every segment keeps the zero values. -/
def flagsClear (st : ScanState) : Prop :=
  (∀ p ∈ st.log.phases, p.success = false ∧ p.properties = []) ∧
  st.cur.success = false ∧ st.cur.properties = []

/-- Each loop iteration preserves the flag invariant. -/
lemma flagsClear_parseStep (st : ScanState) (l : String) (h : flagsClear st) :
    flagsClear (parseStep st l) := by
  obtain ⟨hcl, hcs, hcp⟩ := h
  cases hbi : buildInfoFind l with
  | none =>
    by_cases hph : nextPhase st.phase l ≠ st.phase
    · refine ⟨?_, by simp [parseStep, hbi, hph], by simp [parseStep, hbi, hph]⟩
      intro p hp
      simp [parseStep, hbi, hph] at hp
      rcases hp with hp | hp
      · exact hcl p hp
      · subst hp; exact ⟨hcs, hcp⟩
    · refine ⟨?_, by simp [parseStep, hbi, hph, hcs], by simp [parseStep, hbi, hph, hcp]⟩
      intro p hp
      simp [parseStep, hbi, hph] at hp
      exact hcl p hp
  | some r =>
    obtain ⟨n, pr, d, a⟩ := r
    by_cases hph : nextPhase st.phase l ≠ st.phase
    · refine ⟨?_, by simp [parseStep, hbi, hph], by simp [parseStep, hbi, hph]⟩
      intro p hp
      simp [parseStep, hbi, hph] at hp
      rcases hp with hp | hp
      · exact hcl p hp
      · subst hp; exact ⟨hcs, hcp⟩
    · refine ⟨?_, by simp [parseStep, hbi, hph, hcs], by simp [parseStep, hbi, hph, hcp]⟩
      intro p hp
      simp [parseStep, hbi, hph] at hp
      exact hcl p hp

/-- The scan loop preserves the flag invariant. -/
lemma flagsClear_foldl (ls : List String) :
    ∀ st : ScanState, flagsClear st → flagsClear (ls.foldl parseStep st) := by
  induction ls with
  | nil => intro st h; simpa using h
  | cons l ls ih =>
    intro st h
    rw [List.foldl_cons]
    exact ih _ (flagsClear_parseStep st l h)

/-- Every segment of a parsed log has a clear success flag and no
properties. -/
lemma parseLog_flags (s : String) :
    ∀ p ∈ (ParseLog s).1.phases, p.success = false ∧ p.properties = [] := by
  have h := flagsClear_foldl (scanLines s)
    { log := { rawlog := s }, phase := .Header, cur := {},
      phaseStartTime := 0, lastTime := 0 } (by exact ⟨by simp, rfl, rfl⟩)
  obtain ⟨hcl, hcs, hcp⟩ := h
  intro p hp
  simp [ParseLog, parseLines, flushState] at hp
  rcases hp with hp | hp
  · exact hcl p hp
  · subst hp; exact ⟨hcs, hcp⟩

/-- A nonempty split always produces at least one part. -/
lemma splitNl_ne_nil (cs : List Char) : splitNl cs ≠ [] := by
  cases cs with
  | nil => simp [splitNl]
  | cons c rest =>
    by_cases h : c == '\n'
    · simp [splitNl, h]
    · simp only [splitNl, h, Bool.false_eq_true, if_false]
      cases splitNl rest <;> simp

/-- C1, amended.  `ParseLog` never computes a success verdict: the
`succeeded` flag of every segment it produces is `false`, markers or not.
The only failure heuristic in the sources is `toBuildPhase` of the `osc`
package, whose success flag is true exactly when the trimmed content is
nonempty and its lowercased text contains neither `error:` nor `failed:`
as a substring; there is no exact-token `FAILED`/`ERROR` check and no
Summary-specific second pass anywhere. -/
theorem success_flag_amended :
    (∀ s : String, ∀ seg ∈ (ParseLog s).1.phases, seg.success = false) ∧
    (∀ c : String, (osc.toBuildPhase c).success = true ↔
      (trimSpace c ≠ "" ∧
       containsSub (toLowerGo (trimSpace c)) "error:" = false ∧
       containsSub (toLowerGo (trimSpace c)) "failed:" = false)) := by
  constructor
  · intro s seg hseg
    exact (parseLog_flags s seg hseg).1
  · intro c
    by_cases h : trimSpace c = ""
    · simp [osc.toBuildPhase, h]
    · have hne : goSplitNl (trimSpace c) ≠ [] := by
        simpa [goSplitNl] using splitNl_ne_nil (trimSpace c).data
      simp only [osc.toBuildPhase, if_pos h, h, ne_eq, not_false_eq_true, if_true]
      rw [if_neg (by simpa [List.isEmpty_iff] using hne)]
      simp [Bool.and_eq_true, not_false_iff, h]

/-- C1, witness for the amended theorem at concrete inputs. -/
theorem success_flag_amended_w :
    ({ lines := ["all good"], success := false, duration := 0,
       properties := [], phase := .Header } : BuildPhaseDetails).success = false ∧
    ((osc.toBuildPhase "ok").success = true ↔
      (trimSpace "ok" ≠ "" ∧
       containsSub (toLowerGo (trimSpace "ok")) "error:" = false ∧
       containsSub (toLowerGo (trimSpace "ok")) "failed:" = false)) :=
  ⟨success_flag_amended.1 "all good" _ (by decide), success_flag_amended.2 "ok"⟩

/-- The table scan over an index-annotated suffix agrees with the plain
scan: the first accepted entry's phase is returned, else the current one. -/
lemma scanMatchers_enumFrom (l : String) (c : BuildPhase) :
    ∀ (xs : List (BuildPhase × (String → Bool))) (k : Nat),
      (match (List.enumFrom k xs).find? (fun p => p.2.2 l) with
       | some p => p.2.1
       | none => c) = scanMatchers xs l c := by
  intro xs
  induction xs with
  | nil => intro k; simp [List.enumFrom, scanMatchers]
  | cons x xs ih =>
    intro k
    show (match ((k, x) :: List.enumFrom (k + 1) xs).find? (fun p => p.2.2 l) with
          | some p => p.2.1
          | none => c) = scanMatchers (x :: xs) l c
    cases hx : x.2 l with
    | true => simp [List.find?, hx, scanMatchers]
    | false => simpa [List.find?, hx, scanMatchers] using ih (k + 1)

/-- Filtering the enumerated table for indices strictly above a phase's own
index keeps exactly the suffix past that phase. -/
lemma filter_enum_gt (c : BuildPhase) :
    phaseMatches.enum.filter (fun p => decide (c.idx < p.1)) =
      List.enumFrom (c.idx + 1) (phaseMatches.drop (c.idx + 1)) := by
  cases c <;> rfl

/-- The loop of `nextPhase` and the claim-side first-match formulation
agree. -/
lemma nextPhase_eq_claim (current : BuildPhase) (line : String) :
    nextPhase current line = claimNextPhase current line := by
  rw [nextPhase, claimNextPhase, filter_enum_gt, scanMatchers_enumFrom]

/-- Every entry of the enumerated table carries its own phase index. -/
lemma enum_idx : ∀ p ∈ phaseMatches.enum, p.2.1.idx = p.1 := by
  intro p hp
  fin_cases hp <;> rfl

/-- `nextPhase` either keeps the current phase or strictly advances it. -/
lemma nextPhase_gt (c : BuildPhase) (l : String) :
    nextPhase c l = c ∨ c.idx < (nextPhase c l).idx := by
  rw [nextPhase_eq_claim, claimNextPhase]
  cases h : (phaseMatches.enum.filter (fun p => decide (c.idx < p.1))).find?
      (fun p => p.2.2 l) with
  | none => exact Or.inl rfl
  | some p =>
    right
    have hmem := List.mem_filter.mp (List.mem_of_find?_eq_some h)
    have hidx := enum_idx p hmem.1
    simpa [hidx] using of_decide_eq_true hmem.2

/-- C7.  `nextPhase` examines only matchers of phases with a strictly
greater index than the current phase, never re-evaluating the current or
any earlier phase, and returns the first such phase whose matcher matches
the line; when none matches it returns the current phase unchanged — that
is, it coincides with the claim-side formulation `claimNextPhase`. -/
theorem nextPhase_forward_only (current : BuildPhase) (line : String) :
    nextPhase current line = claimNextPhase current line :=
  nextPhase_eq_claim current line

/-- Ordering invariant of the scan state: closed segments carry strictly
increasing phase indices, all below the current phase's index, and there are
no more closed segments than the current index. -/
def phasesOrdered (st : ScanState) : Prop :=
  (st.log.phases.map (fun p => p.phase)).Pairwise (fun a b => a.idx < b.idx) ∧
  (∀ q ∈ st.log.phases.map (fun p => p.phase), q.idx < st.phase.idx) ∧
  st.log.phases.length ≤ st.phase.idx

/-- Phase bookkeeping of one loop iteration: on a transition the closed
segment (carrying the old phase) is appended and the phase advances, else
everything phase-related is unchanged. -/
lemma parseStep_phase_shape (st : ScanState) (l : String) :
    (nextPhase st.phase l ≠ st.phase →
      ((parseStep st l).log.phases.map (fun p => p.phase) =
        (st.log.phases.map (fun p => p.phase)) ++ [st.phase] ∧
       (parseStep st l).phase = nextPhase st.phase l ∧
       (parseStep st l).log.phases.length = st.log.phases.length + 1)) ∧
    (nextPhase st.phase l = st.phase →
      ((parseStep st l).log.phases = st.log.phases ∧
       (parseStep st l).phase = st.phase)) := by
  constructor
  · intro hph
    cases hbi : buildInfoFind l with
    | none => exact ⟨by simp [parseStep, hbi, hph], by simp [parseStep, hbi, hph],
                     by simp [parseStep, hbi, hph]⟩
    | some r =>
      obtain ⟨n, p, d, a⟩ := r
      exact ⟨by simp [parseStep, hbi, hph], by simp [parseStep, hbi, hph],
             by simp [parseStep, hbi, hph]⟩
  · intro hph
    cases hbi : buildInfoFind l with
    | none => exact ⟨by simp [parseStep, hbi, hph], by simp [parseStep, hbi, hph]⟩
    | some r =>
      obtain ⟨n, p, d, a⟩ := r
      exact ⟨by simp [parseStep, hbi, hph], by simp [parseStep, hbi, hph]⟩

/-- Each loop iteration preserves the ordering invariant. -/
lemma phasesOrdered_parseStep (st : ScanState) (l : String) (h : phasesOrdered st) :
    phasesOrdered (parseStep st l) := by
  obtain ⟨hpw, hub, hlen⟩ := h
  by_cases hph : nextPhase st.phase l = st.phase
  · obtain ⟨hphases, hphase⟩ := (parseStep_phase_shape st l).2 hph
    exact ⟨by rw [hphases]; exact hpw,
           by rw [hphases, hphase]; exact hub,
           by rw [hphases, hphase]; exact hlen⟩
  · have hgt : st.phase.idx < (nextPhase st.phase l).idx := by
      rcases nextPhase_gt st.phase l with he | hlt
      · exact absurd he hph
      · exact hlt
    obtain ⟨hphases, hphase, hlength⟩ := (parseStep_phase_shape st l).1 hph
    refine ⟨?_, ?_, ?_⟩
    · rw [hphases, List.pairwise_append]
      refine ⟨hpw, by simp, ?_⟩
      intro a ha b hb
      simp at hb
      subst hb
      exact hub a ha
    · intro q hq
      rw [hphases] at hq
      rw [hphase]
      simp at hq
      rcases hq with hq | hq
      · exact lt_trans (hub q (by simpa using hq)) hgt
      · subst hq; exact hgt
    · rw [hlength, hphase]
      omega
  
/-- The scan loop preserves the ordering invariant. -/
lemma phasesOrdered_foldl (ls : List String) :
    ∀ st : ScanState, phasesOrdered st → phasesOrdered (ls.foldl parseStep st) := by
  induction ls with
  | nil => intro st h; simpa using h
  | cons l ls ih =>
    intro st h
    rw [List.foldl_cons]
    exact ih _ (phasesOrdered_parseStep st l h)

/-- Phase indices never exceed eleven. -/
lemma idx_le_eleven (p : BuildPhase) : p.idx ≤ 11 := by
  cases p <;> decide

/-- Phase names determine the phase. -/
lemma toString_inj : ∀ a b : BuildPhase, a.toString = b.toString → a = b := by
  decide

/-- The segments of a parsed log have strictly increasing phase indices,
number at most twelve, and pairwise distinct phase names. -/
lemma parseLog_ordered (s : String) :
    ((ParseLog s).1.phases).Pairwise (fun a b => a.phase.idx < b.phase.idx) ∧
    (ParseLog s).1.phases.length ≤ 12 ∧
    ((ParseLog s).1.phases.map (fun p => p.phase.toString)).Nodup := by
  have h := phasesOrdered_foldl (scanLines s)
    { log := { rawlog := s }, phase := .Header, cur := {},
      phaseStartTime := 0, lastTime := 0 } (by exact ⟨by simp, by simp, by simp⟩)
  obtain ⟨hpw, hub, hlen⟩ := h
  set st := (scanLines s).foldl parseStep
    { log := { rawlog := s }, phase := .Header, cur := {},
      phaseStartTime := 0, lastTime := 0 } with hst
  have hphases : (ParseLog s).1.phases.map (fun p => p.phase) =
      (st.log.phases.map (fun p => p.phase)) ++ [st.phase] := by
    simp [ParseLog, parseLines, flushState, hst]
  have hlength : (ParseLog s).1.phases.length = st.log.phases.length + 1 := by
    simp [ParseLog, parseLines, flushState, hst]
  have hpw2 : ((ParseLog s).1.phases.map (fun p => p.phase)).Pairwise
      (fun a b => a.idx < b.idx) := by
    rw [hphases, List.pairwise_append]
    refine ⟨hpw, by simp, ?_⟩
    intro a ha b hb
    simp at hb
    subst hb
    exact hub a ha
  have hpw3 : ((ParseLog s).1.phases).Pairwise
      (fun a b => a.phase.idx < b.phase.idx) := by
    rw [List.pairwise_map] at hpw2
    exact hpw2
  refine ⟨hpw3, ?_, ?_⟩
  · rw [hlength]
    have := idx_le_eleven st.phase
    omega
  · have hne : ((ParseLog s).1.phases).Pairwise
        (fun a b => a.phase.toString ≠ b.phase.toString) := by
      refine hpw3.imp ?_
      intro a b hlt heq
      have hab := toString_inj _ _ heq
      rw [hab] at hlt
      exact lt_irrefl _ hlt
    simpa [List.Nodup, List.pairwise_map] using hne

/-- C10.  For every input the phase indices of the segments returned by
`ParseLog` are strictly increasing (not merely non-decreasing), so each of
the twelve phases occurs in at most one segment, every segmentation has at
most twelve segments, and the phase names of the segments are pairwise
distinct — keying the `FormatJson` output by phase name loses no segment. -/
theorem phases_strictly_increasing (s : String) :
    ((ParseLog s).1.phases).Pairwise (fun a b => a.phase.idx < b.phase.idx) ∧
    (ParseLog s).1.phases.length ≤ 12 ∧
    ((ParseLog s).1.phases.map (fun p => p.phase.toString)).Nodup :=
  parseLog_ordered s

/-- Building the phase map over segments with pairwise distinct names never
overwrites: the result is the entry list in segment order. -/
lemma foldl_mapSet_nodup :
    ∀ (ps : List BuildPhaseDetails) (acc : List (String × PhaseJson)),
      (acc.map Prod.fst ++ ps.map (fun p => p.phase.toString)).Nodup →
      ps.foldl (fun m p => mapSet m p.phase.toString (phaseJsonOf p)) acc =
        acc ++ ps.map (fun p => (p.phase.toString, phaseJsonOf p)) := by
  intro ps
  induction ps with
  | nil => intro acc h; simp
  | cons p ps ih =>
    intro acc h
    have hkey : p.phase.toString ∉ acc.map Prod.fst := by
      intro hmem
      have hd := List.disjoint_of_nodup_append h
      exact hd hmem (by simp)
    have hany : acc.any (fun kv => kv.1 == p.phase.toString) = false := by
      rw [List.any_eq_false]
      intro kv hkv
      by_contra hk
      rw [beq_iff_eq] at hk
      exact hkey (hk ▸ List.mem_map_of_mem Prod.fst hkv)
    rw [List.foldl_cons]
    show List.foldl (fun m q => mapSet m q.phase.toString (phaseJsonOf q))
        (mapSet acc p.phase.toString (phaseJsonOf p)) ps = _
    rw [show mapSet acc p.phase.toString (phaseJsonOf p) =
        acc ++ [(p.phase.toString, phaseJsonOf p)] by simp [mapSet, hany]]
    rw [ih (acc ++ [(p.phase.toString, phaseJsonOf p)]) (by
      simpa [List.append_assoc] using h)]
    simp

/-- Looking a segment's name up in the entry list of a name-distinct
segment list yields that segment's entry. -/
lemma mapGet_map_entry :
    ∀ (ps : List BuildPhaseDetails),
      (ps.map (fun p => p.phase.toString)).Nodup →
      ∀ seg ∈ ps,
        mapGet (ps.map (fun p => (p.phase.toString, phaseJsonOf p))) seg.phase.toString =
          some (phaseJsonOf seg) := by
  intro ps
  induction ps with
  | nil => intro _ seg hseg; simp at hseg
  | cons p ps ih =>
    intro hnd seg hseg
    rcases List.mem_cons.mp hseg with hseg | hseg
    · subst hseg
      simp [mapGet, List.find?]
    · have hne : (p.phase.toString == seg.phase.toString) = false := by
        rw [beq_eq_false_iff_ne]
        intro hk
        have : seg.phase.toString ∈ ps.map (fun q => q.phase.toString) :=
          List.mem_map_of_mem _ hseg
        rw [← hk] at this
        exact (List.nodup_cons.mp (by simpa using hnd)).1 this
      have ihr := ih (List.nodup_cons.mp (by simpa using hnd)).2 seg hseg
      simpa [mapGet, List.find?, hne] using ihr

/-- C5, amended.  `FormatJson` performs no gating at all — it takes no
query: every segment contributes one map entry under its phase name, and
that entry always carries the segment's full `lines` and its `success`
flag, while `duration_seconds` is present only when the duration is
nonzero (so the `{phase, duration, succeeded}` summary is not emitted
unconditionally, and lines are never suppressed for succeeded segments). -/
theorem format_summary_amended (s : String) :
    ∀ seg ∈ (ParseLog s).1.phases,
      mapGet (FormatJson (ParseLog s).1).phases seg.phase.toString =
        some { lines := seg.lines, success := seg.success,
               duration := if seg.duration ≠ 0 then some seg.duration else none,
               properties := none } := by
  intro seg hseg
  have hnodup := (parseLog_ordered s).2.2
  have hfold := foldl_mapSet_nodup (ParseLog s).1.phases [] (by simpa using hnodup)
  have hphases : (FormatJson (ParseLog s).1).phases =
      (ParseLog s).1.phases.map (fun p => (p.phase.toString, phaseJsonOf p)) := by
    simpa [FormatJson] using hfold
  rw [hphases, mapGet_map_entry _ hnodup seg hseg]
  have hflags := parseLog_flags s seg hseg
  simp [phaseJsonOf, hflags.2]

/-- C5, witness for the amended theorem at a concrete input. -/
theorem format_summary_amended_w :
    mapGet (FormatJson (ParseLog "hello").1).phases
        (({ lines := ["hello"], success := false, duration := 0, properties := [],
            phase := .Header } : BuildPhaseDetails).phase.toString) =
      some { lines := ["hello"], success := false,
             duration := if (0 : Int) ≠ 0 then some (0 : Int) else none,
             properties := none } :=
  format_summary_amended "hello" _ (by decide)

/-- When no processed line triggers a transition out of Header, the loop
keeps the phase, closes nothing, and only accumulates lines and time. -/
lemma header_foldl (ls : List String) :
    ∀ st : ScanState, st.phase = .Header →
      (∀ l ∈ ls, nextPhase .Header l = .Header) →
      ((ls.foldl parseStep st).phase = .Header ∧
       (ls.foldl parseStep st).log.phases = st.log.phases ∧
       (ls.foldl parseStep st).cur = { st.cur with lines := st.cur.lines ++ ls } ∧
       (ls.foldl parseStep st).phaseStartTime = st.phaseStartTime) := by
  induction ls with
  | nil => intro st hph _; exact ⟨hph, rfl, by simp, rfl⟩
  | cons l ls ih =>
    intro st hph hno
    have hnl : nextPhase st.phase l = st.phase := by
      rw [hph]; exact hno l (List.mem_cons_self l ls)
    have hstep : (parseStep st l).phase = st.phase ∧
        (parseStep st l).log.phases = st.log.phases ∧
        (parseStep st l).cur = { st.cur with lines := st.cur.lines ++ [l] } ∧
        (parseStep st l).phaseStartTime = st.phaseStartTime := by
      cases hbi : buildInfoFind l with
      | none => exact ⟨by simp [parseStep, hbi, hnl], by simp [parseStep, hbi, hnl],
                       by simp [parseStep, hbi, hnl], by simp [parseStep, hbi, hnl]⟩
      | some r =>
        obtain ⟨n, p, d, a⟩ := r
        exact ⟨by simp [parseStep, hbi, hnl], by simp [parseStep, hbi, hnl],
               by simp [parseStep, hbi, hnl], by simp [parseStep, hbi, hnl]⟩
    rw [List.foldl_cons]
    have ihr := ih (parseStep st l) (by rw [hstep.1, hph])
      (fun x hx => hno x (List.mem_cons_of_mem l hx))
    refine ⟨ihr.1, ?_, ?_, ?_⟩
    · rw [ihr.2.1, hstep.2.1]
    · rw [ihr.2.2.1, hstep.2.2.1]
      simp
    · rw [ihr.2.2.2, hstep.2.2.2]

/-- C8, amended.  `ParseLog` is total and always returns a `nil` error, for
every input; an input none of whose scanned lines matches a phase-signature
matcher of positive index degenerates to exactly one Header segment
containing exactly the scanned lines — the whole input when every line
stays under `bufio`'s 64 KiB token cap, only the pre-overflow lines
otherwise — with the always-false success flag and the last seen timestamp
as duration, and its metadata fields are empty provided that, additionally,
no scanned line matches the build-info pattern (a build-info line fills the
metadata even in a single-Header-segment parse, as the recorded
counterexample shows). -/
theorem parse_total_degenerate (s : String) :
    (ParseLog s).2 = none ∧
    ((∀ l ∈ scanLines s, nextPhase .Header l = .Header) →
      (ParseLog s).1.phases =
        [{ lines := scanLines s, success := false,
           duration := (lastTimeOf (scanLines s) : Int), properties := [],
           phase := .Header }]) ∧
    ((∀ l ∈ scanLines s, buildInfoFind l = none) →
      (ParseLog s).1.name = "" ∧ (ParseLog s).1.project = "" ∧
      (ParseLog s).1.distro = "" ∧ (ParseLog s).1.arch = "") := by
  refine ⟨rfl, ?_, ?_⟩
  · intro hno
    have h := header_foldl (scanLines s)
      { log := { rawlog := s }, phase := .Header, cur := {},
        phaseStartTime := 0, lastTime := 0 } rfl hno
    have hl := lastTime_foldl (scanLines s)
      { log := { rawlog := s }, phase := .Header, cur := {},
        phaseStartTime := 0, lastTime := 0 }
    obtain ⟨h1, h2, h3, h4⟩ := h
    simp [ParseLog, parseLines, flushState, h1, h2, h3, h4, hl, lastTimeOf]
  · intro hbi
    have h := metaQuad_foldl (scanLines s)
      { log := { rawlog := s }, phase := .Header, cur := {},
        phaseStartTime := 0, lastTime := 0 }
    rw [List.filterMap_eq_nil_iff.mpr hbi] at h
    simp [metaQuad] at h
    refine ⟨?_, ?_, ?_, ?_⟩ <;>
      simp [ParseLog, parseLines, flushState, h.1, h.2.1, h.2.2.1, h.2.2.2]

/-- C8, witness for the amended theorem at a concrete input. -/
theorem parse_total_degenerate_w :
    (ParseLog "hello\nworld").2 = none ∧
    (ParseLog "hello\nworld").1.phases =
      [{ lines := scanLines "hello\nworld", success := false,
         duration := (lastTimeOf (scanLines "hello\nworld") : Int), properties := [],
         phase := .Header }] ∧
    (ParseLog "hello\nworld").1.name = "" :=
  ⟨(parse_total_degenerate "hello\nworld").1,
   (parse_total_degenerate "hello\nworld").2.1 (by decide),
   ((parse_total_degenerate "hello\nworld").2.2 (by decide)).1⟩

/-- Replace the raw-text field buried in a scan state. -/
def setRaw (st : ScanState) (r : String) : ScanState :=
  { st with log := { st.log with rawlog := r } }

/-- The loop never reads or writes the raw text. -/
lemma parseStep_setRaw (st : ScanState) (l : String) (r : String) :
    parseStep (setRaw st r) l = setRaw (parseStep st l) r := by
  cases hbi : buildInfoFind l with
  | none =>
    by_cases hph : nextPhase st.phase l ≠ st.phase <;>
      simp [parseStep, setRaw, hbi, hph]
  | some x =>
    obtain ⟨n, p, d, a⟩ := x
    by_cases hph : nextPhase st.phase l ≠ st.phase <;>
      simp [parseStep, setRaw, hbi, hph]

/-- The scan loop never reads or writes the raw text. -/
lemma foldl_setRaw (ls : List String) :
    ∀ (st : ScanState) (r : String),
      ls.foldl parseStep (setRaw st r) = setRaw (ls.foldl parseStep st) r := by
  induction ls with
  | nil => intro st r; rfl
  | cons l ls ih =>
    intro st r
    rw [List.foldl_cons, parseStep_setRaw, ih, List.foldl_cons]

/-- Neither does the final flush. -/
lemma flushState_setRaw (st : ScanState) (r : String) :
    flushState (setRaw st r) = { flushState st with rawlog := r } := by
  simp [flushState, setRaw]

/-- The segments of a parse do not depend on the raw text recorded in the
log. -/
lemma parseLines_raw_phases (r1 r2 : String) (ls : List String) :
    (parseLines r1 ls).phases = (parseLines r2 ls).phases := by
  have h1 : parseLines r1 ls = flushState (ls.foldl parseStep (setRaw { log := { rawlog := r2 }, phase := .Header, cur := {}, phaseStartTime := 0, lastTime := 0 } r1)) := rfl
  rw [h1, foldl_setRaw, flushState_setRaw]
  rfl

/-- C9, amended.  Re-parsing the joined line material of a parsed log yields
the identical segmentation whenever the joined text scans back to the same
line list — which holds unless a scanned line ends in a carriage return or
the final scanned line is empty, the two cases in which `bufio.ScanLines`
is not a retraction of newline-joining (see the recorded counterexample). -/
theorem reparse_idempotent_amended (s : String)
    (h : scanLines (joinLines (scanLines s)) = scanLines s) :
    (ParseLog (joinLines (((ParseLog s).1.phases.map (fun p => p.lines)).flatten))).1.phases =
      (ParseLog s).1.phases := by
  have hflat : ((ParseLog s).1.phases.map (fun p => p.lines)).flatten = scanLines s :=
    parseLines_lines s (scanLines s)
  rw [hflat]
  show (parseLines (joinLines (scanLines s)) (scanLines (joinLines (scanLines s)))).phases =
    (parseLines s (scanLines s)).phases
  rw [h]
  exact parseLines_raw_phases (joinLines (scanLines s)) s (scanLines s)

/-- C9, witness for the amended theorem at a concrete input. -/
theorem reparse_idempotent_amended_w :
    scanLines (joinLines (scanLines "a\nb")) = scanLines "a\nb" ∧
    (ParseLog (joinLines (((ParseLog "a\nb").1.phases.map (fun p => p.lines)).flatten))).1.phases =
      (ParseLog "a\nb").1.phases :=
  ⟨by decide, reparse_idempotent_amended "a\nb" (by decide)⟩

/-- C6, amended.  The concrete scenario input parses into exactly one
segment: a Header segment holding all four lines, with the always-false
success flag and duration 6; no Summary segment is produced because the
line `[6s] finished "build foo"` lacks the `i<N>-` worker prefix demanded
by the Summary matcher. -/
theorem scenario_single_header :
    (ParseLog scenarioInput).1.phases =
      [{ lines := ["[0s] init_buildsystem", "[2s] querying package ids...",
                   "[5s] ERROR: x", "[6s] finished \"build foo\""],
         success := false, duration := 6, properties := [], phase := .Header }] := by
  decide

/-- A raw line of exactly `bufio.MaxScanTokenSize` bytes. -/
def overLongLine : List Char := List.replicate maxScanTokenSize 'a'

/-- An input whose first line overflows the scanner, followed by a short
second line. -/
def overLongInput : String := (overLongLine ++ '\n' :: ['b']).asString

/-- Replicated ASCII characters occupy one byte each. -/
lemma utf8ByteLen_replicate : ∀ n : Nat, utf8ByteLen (List.replicate n 'a') = n
  | 0 => rfl
  | n + 1 => by
    rw [List.replicate_succ]
    show utf8Len 'a' + utf8ByteLen (List.replicate n 'a') = n + 1
    rw [utf8ByteLen_replicate n, show utf8Len 'a' = 1 from rfl]
    omega

/-- Splitting at the first newline detaches the newline-free part before
it. -/
lemma splitNl_append : ∀ (xs ys : List Char), '\n' ∉ xs →
    splitNl (xs ++ '\n' :: ys) = xs :: splitNl ys
  | [], ys, _ => by simp [splitNl]
  | c :: cs, ys, h => by
    have hc : (c == '\n') = false := by
      rw [beq_eq_false_iff_ne]
      intro he
      exact h (he ▸ List.mem_cons_self c cs)
    have hrest : '\n' ∉ cs := fun hm => h (List.mem_cons_of_mem c hm)
    rw [List.cons_append]
    show splitNl (c :: (cs ++ '\n' :: ys)) = (c :: cs) :: splitNl ys
    simp only [splitNl, hc, Bool.false_eq_true, if_false]
    rw [splitNl_append cs ys hrest]

/-- C2, counterexample.  `overLongInput` consists of a 65536-byte line and
the line `b`, yet the parse contains no line at all: the scanner stops with
`ErrTooLong` on the over-long first line (never checked by `ParseLog`), so
both it and the following line are dropped and concatenating the segments'
line sequences does not reproduce the input's line sequence. -/
theorem overlong_line_dropped_cex :
    ((ParseLog overLongInput).1.phases.map (fun p => p.lines)).flatten = [] ∧
    splitNl overLongInput.data = [overLongLine, ['b']] ∧
    (idealLines overLongInput).length = 2 := by
  have hnl : '\n' ∉ overLongLine := by
    intro hm
    have hme := List.eq_of_mem_replicate hm
    exact absurd hme (by decide)
  have hsplit : splitNl overLongInput.data = [overLongLine, ['b']] := by
    show splitNl (overLongLine ++ '\n' :: ['b']) = [overLongLine, ['b']]
    rw [splitNl_append overLongLine ['b'] hnl]
    rfl
  have hbytes : utf8ByteLen overLongLine = maxScanTokenSize :=
    utf8ByteLen_replicate maxScanTokenSize
  have hscan : scanLines overLongInput = [] := by
    simp only [scanLines]
    rw [hsplit]
    simp [scanTokens, hbytes]
  refine ⟨?_, hsplit, ?_⟩
  · have h1 : ((ParseLog overLongInput).1.phases.map (fun p => p.lines)).flatten =
        scanLines overLongInput := parseLines_lines overLongInput (scanLines overLongInput)
    rw [h1, hscan]
  · simp only [idealLines]
    rw [hsplit, idealTokens_cons₂]
    rfl
